import Mathlib

/-
  Verification of the multi-community controversy scoring engine of the
  X-Track repository (`polarity_analysis/polarity_scores.py` and
  `polarity_analysis/campaign_analysis.py`).

  Shallow embedding conventions:
  * Node identifiers are opaque user ids (strings in the source, arbitrary
    hashables for networkx); they are modelled as `Nat`, which preserves the
    only operations the source performs on them: equality tests and the
    total order used by Python's `sorted`.
  * Python floats are modelled as exact rationals `ℚ`.
  * Python exceptions (IndexError from `lst[i]` / `random.choice([])`,
    ValueError from `random.sample([], 1)`, ZeroDivisionError) are modelled
    by `Except PyErr`.
  * The ambient RNG (`random.choice`, `random.sample`) is modelled by
    explicit oracle functions supplying one `Nat` per draw; the drawn index
    is the oracle value reduced modulo the length of the list drawn from.
  * The unbounded `while` loop of the random walk is modelled with an
    explicit fuel parameter; exhausted fuel is reported as `nonTermination`,
    a value no actual (terminating) execution of the source produces.
  * Database-dependent collaborators (the SQL sentiment lookup
    `_get_reply_sentiment`, the networkx community detection call in
    `gen_partitions`, and the non-default centrality measures) are external
    inputs of the engine and are modelled as function parameters.
-/

namespace XTrack

/-- Python-level failures of the engine, used as the error type of the
embedding.  `indexError` models `IndexError` (out-of-range list indexing and
`random.choice` on an empty list), `valueError` models `ValueError`
(`random.sample` of size 1 from an empty population), `zeroDivisionError`
models `ZeroDivisionError` in `_calc_polarity`, and `nonTermination` is the
fuel-exhaustion artifact of modelling the unbounded walk loop. -/
inductive PyErr where
  | indexError
  | valueError
  | zeroDivisionError
  | nonTermination
deriving DecidableEq, Repr

/-- A networkx graph (`nx.Graph` when `directed = false`, `nx.DiGraph` when
`directed = true`): a node list in insertion order and an edge list carrying
the `w` attribute.  For an undirected graph an edge is stored once and read
in both orientations. -/
structure Graph where
  directed : Bool
  nodes : List Nat
  edges : List (Nat × Nat × ℚ)
deriving DecidableEq, Repr

/-- Adjacency test: `b` is a neighbor of `a`.  For an undirected graph the
stored orientation is irrelevant; for a directed graph only out-edges
count (this is what `G.neighbors` iterates over in networkx). -/
def Graph.adj (G : Graph) (a b : Nat) : Bool :=
  G.edges.any (fun e => (e.1 == a && e.2.1 == b) || (!G.directed && e.1 == b && e.2.1 == a))

/-- The neighbor list `[n for n in G.neighbors(node)]`, in node insertion
order. -/
def Graph.neighbors (G : Graph) (v : Nat) : List Nat :=
  G.nodes.filter (fun u => G.adj v u)

/-- Append a node unless already present (networkx node insertion). -/
def insertNode (ns : List Nat) (v : Nat) : List Nat :=
  if ns.contains v then ns else ns ++ [v]

/-- Overwrite the `w` attribute of the edge `(a, b)` (either orientation for
an undirected graph), as a repeated row does in `nx.from_pandas_edgelist`. -/
def setWeight (directed : Bool) (es : List (Nat × Nat × ℚ)) (a b : Nat) (w : ℚ) :
    List (Nat × Nat × ℚ) :=
  es.map (fun e =>
    if (e.1 == a && e.2.1 == b) || (!directed && e.1 == b && e.2.1 == a) then
      (e.1, e.2.1, w)
    else e)

/-- Add one `(a, b, w)` row of the pandas edge list to the graph. -/
def addRow (G : Graph) (r : Nat × Nat × ℚ) : Graph :=
  let ns := insertNode (insertNode G.nodes r.1) r.2.1
  if G.adj r.1 r.2.1 then
    { G with nodes := ns, edges := setWeight G.directed G.edges r.1 r.2.1 r.2.2 }
  else
    { G with nodes := ns, edges := G.edges ++ [r] }

/-- `nx.from_pandas_edgelist(df, 'a', 'b', ["w"])` over the rows of the
query result (`_gen_graph_from_query`, polarity_scores.py lines 49-56). -/
def fromEdgeList (directed : Bool) (rows : List (Nat × Nat × ℚ)) : Graph :=
  rows.foldl addRow ⟨directed, [], []⟩

/-- Degree-0 test, as used by `nx.isolates`. -/
def Graph.isolated (G : Graph) (v : Nat) : Bool :=
  !(G.edges.any (fun e => e.1 == v || e.2.1 == v))

/-- `G.remove_nodes_from(list(nx.isolates(G)))` (polarity_scores.py line
122-123).  Isolated nodes carry no edges, so the edge list is unchanged. -/
def removeIsolates (G : Graph) : Graph :=
  { G with nodes := G.nodes.filter (fun v => !(G.isolated v)) }

/-- One breadth-expansion step of a node set: append every node of the graph
adjacent to the set and not yet in it. -/
def expandOnce (G : Graph) (S : List Nat) : List Nat :=
  S ++ G.nodes.filter (fun b => !(S.contains b) && S.any (fun a => G.adj a b))

/-- The connected component of `v`: saturate `expandOnce` (at most
`|nodes|` expansions are ever useful). -/
def compOf (G : Graph) (v : Nat) : List Nat :=
  (expandOnce G)^[G.nodes.length] [v]

/-- Components in first-seen node order, as `nx.connected_components`
yields them. -/
def componentsAux (G : Graph) : List Nat → List Nat → List (List Nat)
  | [], _ => []
  | v :: vs, seen =>
    if seen.contains v then componentsAux G vs seen
    else compOf G v :: componentsAux G vs (seen ++ compOf G v)

/-- `nx.connected_components(G)`. -/
def connectedComponents (G : Graph) : List (List Nat) :=
  componentsAux G G.nodes []

/-- `sorted(nx.connected_components(G), key=len, reverse=True)[0]`
(polarity_scores.py lines 126-127): the first component of maximal size
(Python's sort is stable, also under `reverse=True`), or `none` when there
is no component at all — in which case the source raises `IndexError`. -/
def largestComponent (G : Graph) : Option (List Nat) :=
  match connectedComponents G with
  | [] => none
  | c :: cs => some (cs.foldl (fun best d => if d.length > best.length then d else best) c)

/-- `G.subgraph(part)`: the node-induced subgraph. -/
def Graph.subgraphOn (G : Graph) (part : List Nat) : Graph :=
  { G with
    nodes := G.nodes.filter (fun v => part.contains v),
    edges := G.edges.filter (fun e => part.contains e.1 && part.contains e.2.1) }

/-- `gen_graph` (polarity_scores.py lines 65-129) as invoked by the campaign
pipeline (campaign_analysis.py line 76): the SQL query supplies the
`(a, b, w)` rows, and the defaults `connected=True`, `remove_isolated=True`,
`directed=False` apply.  `Gcc[0]` on the empty component list raises
`IndexError`. -/
def genGraph (rows : List (Nat × Nat × ℚ)) : Except PyErr Graph :=
  match largestComponent (removeIsolates (fromEdgeList false rows)) with
  | none => .error .indexError
  | some c => .ok ((removeIsolates (fromEdgeList false rows)).subgraphOn c)

/-- The `[count, [[nodes...], ...]]` partition value built by
`gen_partitions` (mode="modularity", polarity_scores.py lines 138-146). -/
structure Parts where
  count : Nat
  comms : List (List Nat)
deriving DecidableEq, Repr

/-- networkx `degree`: number of edge endpoints at `v` (a self-loop counts
twice). -/
def degree (G : Graph) (v : Nat) : Nat :=
  (G.edges.filter (fun e => e.1 == v)).length + (G.edges.filter (fun e => e.2.1 == v)).length

/-- `nx.degree_centrality`: degree divided by `n - 1` (networkx returns 1
for every node of a graph with at most one node). -/
def degreeCentrality (G : Graph) : List (Nat × ℚ) :=
  if G.nodes.length ≤ 1 then G.nodes.map (fun v => (v, 1))
  else G.nodes.map (fun v => (v, (degree G v : ℚ) / ((G.nodes.length : ℚ) - 1)))

/-- Insertion step of Python's `sorted` over `score.items()`: pairs ordered
by key (the keys — node ids — are distinct, so the value never decides). -/
def insertPair (p : Nat × ℚ) : List (Nat × ℚ) → List (Nat × ℚ)
  | [] => [p]
  | q :: qs => if p.1 ≤ q.1 then p :: q :: qs else q :: insertPair p qs

/-- `sorted(score.items())`: sort the centrality dict's items by node id. -/
def sortPairs (ps : List (Nat × ℚ)) : List (Nat × ℚ) :=
  ps.foldr insertPair []

/-- `math.ceil((k * len) / 100)` on naturals. -/
def ceilPct (k len : Nat) : Nat :=
  (k * len + 99) / 100

/-- `get_influencer_matrix` (polarity_scores.py lines 151-175).  The
centrality measure chosen by the `metric` string is a networkx call,
modelled by the `score` parameter (`degreeCentrality` for the default
`"degree_centrality"`); its result dict is keyed by the subgraph's nodes.
Note two behaviours of the source preserved here: the variable `k` is
reassigned inside the community loop (`k = math.ceil((k * len(H.nodes()))
/ 100)`), so each community's cutoff is computed from the previous
community's cutoff rather than from the originally supplied percentage;
and `sorted(score.items())` sorts by node id, not by centrality value. -/
def getInfluencerMatrix (score : Graph → List (Nat × ℚ)) (G : Graph) (parts : Parts)
    (k : Nat) : List (List Nat) :=
  (parts.comms.foldl (fun st part =>
      let H := G.subgraphOn part
      let sc := score H
      let k2 := ceilPct st.2 H.nodes.length
      let nodesMetric := (sortPairs sc).map Prod.fst
      (st.1 ++ [nodesMetric.take k2], k2))
    (([] : List (List Nat)), k)).1

/-- The signed vote derived from a `(pos, neg)` sentiment pair
(polarity_scores.py lines 228-233): `+1` if `neg > pos`, `-1` if
`pos > neg`, else `0`. -/
def voteOf (pr : ℚ × ℚ) : ℚ :=
  if pr.1 < pr.2 then 1 else if pr.2 < pr.1 then -1 else 0

/-- The side-detection loop of `_random_walk_multi` (lines 236-241): every
row containing the node overwrites `side`, so the *last* matching row index
wins; `none` when no row matches (the walk continues). -/
def findSideLast (infl : List (List Nat)) (v : Nat) : Option Nat :=
  (infl.foldl (fun st row => (st.1 + 1, if row.contains v then some st.1 else st.2))
    (0, none)).2

/-- Result of one random walk: termination at a gatekeeper with the
accumulated per-community sentiment, the `IndexError` of
`random.choice([])` at a neighborless node (`deadEnd`), or fuel
exhaustion. -/
inductive WalkRes where
  | ok (side : Nat) (sent : List ℚ)
  | deadEnd
  | nonTermination
deriving DecidableEq, Repr

/-- Loop body of `_random_walk_multi` (polarity_scores.py lines 214-243):
move to a random neighbor first, then add one signed sentiment vote per
community for the node just reached, then test gatekeeper membership of
that node.  `senti` models the SQL lookup `_get_reply_sentiment`; `σ`
models the successive `random.choice` draws. -/
def walkAux (G : Graph) (parts infl : List (List Nat)) (senti : Nat → List Nat → ℚ × ℚ)
    (σ : Nat → Nat) : Nat → Nat → Nat → List ℚ → WalkRes
  | 0, _, _, _ => .nonTermination
  | fuel + 1, t, node, sacc =>
    let ns := G.neighbors node
    if ns.isEmpty then .deadEnd
    else
      let node2 := ns.getD (σ t % ns.length) 0
      let sacc2 := List.zipWith (fun s p => s + voteOf (senti node2 p)) sacc parts
      match findSideLast infl node2 with
      | some i => .ok i sacc2
      | none => walkAux G parts infl senti σ fuel (t + 1) node2 sacc2

/-- `_random_walk_multi(G, node, parts, influencers_matrix)`: the sentiment
accumulator starts at zero for each community. -/
def randomWalkMulti (G : Graph) (parts infl : List (List Nat))
    (senti : Nat → List Nat → ℚ × ℚ) (σ : Nat → Nat) (fuel node : Nat) : WalkRes :=
  walkAux G parts infl senti σ fuel 0 node (parts.map (fun _ => 0))

/-- A float matrix (`rwc_matrix`, `rwc_matrix_sentiment`). -/
abbrev Mat := List (List ℚ)

/-- `_calc_polarity` (polarity_scores.py lines 279-294), the pure formula:
the double loop accumulates `v` and `vs`, then
`pscore = ((v * (1/(n-1))) + (vs * (1/ pow(n,2)))) / 2` with
`n = len(rwc_matrix)`. -/
def calcPolarity (M S : Mat) : ℚ :=
  let n := M.length
  let p := (List.range n).foldl (fun acc i =>
    (List.range n).foldl (fun a2 kk =>
      (a2.1 + (1 / (n : ℚ) - (M.getD i []).getD kk 0) ^ 2,
       a2.2 + ((S.getD i []).getD kk 0) ^ 2)) acc) ((0 : ℚ), (0 : ℚ))
  ((p.1 * (1 / ((n : ℚ) - 1))) + (p.2 * (1 / ((n : ℚ) ^ 2)))) / 2

/-- `_calc_polarity` with its Python failure modes: for `n ≤ 1` the source
raises `ZeroDivisionError` (`1/(n-1)` for `n = 1`, `1/pow(n,2)` for
`n = 0`), and a matrix narrower than `n` raises `IndexError`. -/
def calcPolarityE (M S : Mat) : Except PyErr ℚ :=
  let n := M.length
  if n ≤ 1 then .error .zeroDivisionError
  else if !((List.range n).all (fun i =>
      decide (n ≤ (M.getD i []).length) && decide (n ≤ (S.getD i []).length))) then
    .error .indexError
  else .ok (calcPolarity M S)

/-- The per-`j` sentiment-row update of `polarity_score_multi` (line 265):
`rwc_matrix_sentiment[k][j] += max(sentiment[j] / iterations, 0)` for every
`j < len(sentiment)`; entries of the row beyond the sentiment vector are
untouched. -/
def addSentRow (qI : ℚ) : List ℚ → List ℚ → List ℚ
  | row, [] => row
  | [], _ :: _ => []
  | r :: rs, s :: ss => (r + max (s / qI) 0) :: addSentRow qI rs ss

/-- One `(x, k)` step of the double loop of `polarity_score_multi` (lines
254-269): draw a start node of community `k` (`random.sample(part, 1)[0]`,
a `ValueError` on an empty community), run one walk, fold its sentiment
into row `k` of the sentiment matrix, and add `1/iterations` to
`rwc_matrix[k][side]` (an `IndexError` when `side` exceeds the row). -/
def stepWalk (G : Graph) (comms infl : List (List Nat))
    (senti : Nat → List Nat → ℚ × ℚ) (startIdx : Nat → Nat → Nat)
    (walkσ : Nat → Nat → Nat → Nat) (I fuelW x k : Nat) (st : Mat × Mat) :
    Except PyErr (Mat × Mat) :=
  let part := comms.getD k []
  if part.isEmpty then .error .valueError
  else
    let node := part.getD (startIdx x k % part.length) 0
    match randomWalkMulti G comms infl senti (walkσ x k) fuelW node with
    | .deadEnd => .error .indexError
    | .nonTermination => .error .nonTermination
    | .ok side sent =>
      let srow := st.2.getD k []
      if sent.length ≤ srow.length then
        let Ms2 := st.2.set k (addSentRow (I : ℚ) srow sent)
        let mrow := st.1.getD k []
        if side < mrow.length then
          .ok (st.1.set k (mrow.set side (mrow.getD side 0 + 1 / (I : ℚ))), Ms2)
        else .error .indexError
      else .error .indexError

/-- The inner `for k in range(0, n)` loop of `polarity_score_multi`. -/
def runRows (G : Graph) (comms infl : List (List Nat))
    (senti : Nat → List Nat → ℚ × ℚ) (startIdx : Nat → Nat → Nat)
    (walkσ : Nat → Nat → Nat → Nat) (I fuelW x : Nat) :
    List Nat → Mat × Mat → Except PyErr (Mat × Mat)
  | [], st => .ok st
  | k :: ks, st =>
    (stepWalk G comms infl senti startIdx walkσ I fuelW x k st).bind
      (runRows G comms infl senti startIdx walkσ I fuelW x ks)

/-- The outer `for x in range(0, iterations)` loop of
`polarity_score_multi`. -/
def runIters (G : Graph) (comms infl : List (List Nat))
    (senti : Nat → List Nat → ℚ × ℚ) (startIdx : Nat → Nat → Nat)
    (walkσ : Nat → Nat → Nat → Nat) (I fuelW n : Nat) :
    List Nat → Mat × Mat → Except PyErr (Mat × Mat)
  | [], st => .ok st
  | x :: xs, st =>
    (runRows G comms infl senti startIdx walkσ I fuelW x (List.range n) st).bind
      (runIters G comms infl senti startIdx walkσ I fuelW n xs)

/-- `polarity_score_multi(G, parts, influencers_matrix, iterations)`
(polarity_scores.py lines 247-276): both matrices start as `n × n` zero
matrices with `n = parts[0]`, the double loop accumulates them, and
`_calc_polarity` reduces them to the score.  `startIdx` models the
`random.sample` draws and `walkσ` the `random.choice` draws of the walk
launched at iteration `(x, k)`. -/
def polarityScoreMulti (G : Graph) (parts : Parts) (infl : List (List Nat))
    (senti : Nat → List Nat → ℚ × ℚ) (startIdx : Nat → Nat → Nat)
    (walkσ : Nat → Nat → Nat → Nat) (I fuelW : Nat) :
    Except PyErr (ℚ × Mat × Mat) :=
  let n := parts.count
  let M0 : Mat := List.replicate n (List.replicate n (0 : ℚ))
  (runIters G parts.comms infl senti startIdx walkσ I fuelW n (List.range I) (M0, M0)).bind
    (fun st => (calcPolarityE st.1 st.2).map (fun ps => (ps, st.1, st.2)))

/-- `gen_partitions(G, mode="modularity")` (polarity_scores.py lines
138-149): the community detection itself is the external call
`nx_comm.greedy_modularity_communities` / `nx_comm.modularity`, modelled by
the `communities` parameter; the function repackages its result as
`[len(communities), [list(c), ...]]` plus the modularity float. -/
def genPartitions (communities : Graph → List (List Nat) × ℚ) (G : Graph) : Parts × ℚ :=
  let cm := communities G
  (⟨cm.1.length, cm.1⟩, cm.2)

/-- The per-(date, topic) record assembled by `Polarity.analyse_polarity`
(campaign_analysis.py lines 82-90 and 102-110). -/
structure PolRecord where
  topic_words : List String
  pscore : ℚ
  num_communities : Nat
  modularity : ℚ
  rwc_matrix_sentiment : Mat
  rwc_matrix : Mat
  influencers : List (List Nat)
deriving DecidableEq, Repr

/-- The body of `Polarity.analyse_polarity` for one (date, topic) unit
(campaign_analysis.py lines 76-110): build the graph from the unit's edge
rows; if it has no edges (`nx.is_empty`), emit the zero record; otherwise
partition, and either run `get_influencer_matrix` (default metric
`"degree_centrality"`, default `k = 10`) plus `polarity_score_multi`, or —
when at most one community was found — emit the `0.0, [[]], [[]], [[]]`
defaults of line 100.  Any Python exception of a callee propagates. -/
def analyseUnit (topic : List String) (rows : List (Nat × Nat × ℚ))
    (communities : Graph → List (List Nat) × ℚ)
    (senti : Nat → List Nat → ℚ × ℚ) (startIdx : Nat → Nat → Nat)
    (walkσ : Nat → Nat → Nat → Nat) (I fuelW : Nat) : Except PyErr PolRecord :=
  match genGraph rows with
  | .error e => .error e
  | .ok G =>
    if G.edges.isEmpty then
      .ok ⟨topic, 0, 0, 0, [], [], []⟩
    else
      let pm := genPartitions communities G
      let parts := pm.1
      if parts.count > 1 then
        let infl := getInfluencerMatrix degreeCentrality G parts 10
        match polarityScoreMulti G parts infl senti startIdx walkσ I fuelW with
        | .error e => .error e
        | .ok r => .ok ⟨topic, r.1, parts.count, pm.2, r.2.2, r.2.1, infl⟩
      else
        .ok ⟨topic, 0, parts.count, pm.2, [[]], [[]], [[]]⟩

/-! ### Specification-side definitions

These definitions follow the words of the specification (and of the claims
derived from it); the theorems below compare them with the embedded source
functions above. -/

/-- Sum of row `i` of a matrix. -/
def rowSum (M : Mat) (i : Nat) : ℚ :=
  (M.getD i []).sum

/-- The score formula as the specification states it:
`((Σ_i Σ_k (1/n − M[i][k])²) · 1/(n−1) + (Σ_i Σ_k S[i][k]²) · 1/n²) / 2`. -/
def calcPolaritySpec (M S : Mat) (n : Nat) : ℚ :=
  ((∑ i in Finset.range n, ∑ k in Finset.range n,
      (1 / (n : ℚ) - (M.getD i []).getD k 0) ^ 2) * (1 / ((n : ℚ) - 1))
    + (∑ i in Finset.range n, ∑ k in Finset.range n,
      ((S.getD i []).getD k 0) ^ 2) * (1 / ((n : ℚ) ^ 2))) / 2

/-- The sequence of nodes a walk visits *after* its start node, ending with
the first node that lies in some gatekeeper row (the node that terminates
the walk), following the same neighbor choices `σ` as the walk itself.
Empty when the walk cannot move at all or the fuel runs out. -/
def walkTrace (G : Graph) (infl : List (List Nat)) (σ : Nat → Nat) :
    Nat → Nat → Nat → List Nat
  | 0, _, _ => []
  | fuel + 1, t, node =>
    let ns := G.neighbors node
    if ns.isEmpty then []
    else
      let node2 := ns.getD (σ t % ns.length) 0
      match findSideLast infl node2 with
      | some _ => [node2]
      | none => node2 :: walkTrace G infl σ fuel (t + 1) node2

/-- Add the signed sentiment votes of one visited node, one vote per
community, to a running accumulator. -/
def addVotes (parts : List (List Nat)) (senti : Nat → List Nat → ℚ × ℚ)
    (sacc : List ℚ) (v : Nat) : List ℚ :=
  List.zipWith (fun s p => s + voteOf (senti v p)) sacc parts

/-- Accumulate the votes of a whole visited-node sequence. -/
def votesAlong (parts : List (List Nat)) (senti : Nat → List Nat → ℚ × ℚ)
    (sacc : List ℚ) (vs : List Nat) : List ℚ :=
  vs.foldl (addVotes parts senti) sacc

/-! ### Theorems -/

attribute [local semireducible] Rat.add Rat.mul Rat.sub Rat.inv Rat.ofScientific

set_option maxRecDepth 100000

/-- C1: evaluation of `get_influencer_matrix` at a failing input.  On the
path graph `0 - 1 - 2` with the single community `[0, 1, 2]`, the default
degree centrality and `k = 10`, the source keeps `[0]` — the smallest node
id — although the dropped node `1` has strictly greater degree centrality
(`1` versus `1/2`): `sorted(score.items())` sorts the centrality dict by
node id, not by centrality value descending, so the claim's "every node
kept has centrality ≥ every node dropped" fails. -/
theorem c1_gatekeeper_order_eval :
    getInfluencerMatrix degreeCentrality ⟨false, [0, 1, 2], [(0, 1, 1), (1, 2, 1)]⟩
        ⟨1, [[0, 1, 2]]⟩ 10 = [[0]] ∧
      ((degreeCentrality ((⟨false, [0, 1, 2], [(0, 1, 1), (1, 2, 1)]⟩ : Graph).subgraphOn
          [0, 1, 2])).lookup 1).getD 0 >
        ((degreeCentrality ((⟨false, [0, 1, 2], [(0, 1, 1), (1, 2, 1)]⟩ : Graph).subgraphOn
          [0, 1, 2])).lookup 0).getD 0 := by
  decide

/-- C2: evaluation of `get_influencer_matrix` at a failing input.  With
`k_pct = 1` and two communities of sizes 101 and 150 (in an edgeless
251-node graph), the source returns a second gatekeeper list of length 3,
exceeding the claimed bound `ceil(1 · 150 / 100) = 2`: the loop reassigns
`k`, so the second community's cutoff is computed from the first
community's cutoff (`2`), giving `ceil(2 · 150 / 100) = 3`. -/
theorem c2_gatekeeper_bound_eval :
    ((getInfluencerMatrix degreeCentrality ⟨false, List.range 251, []⟩
        ⟨2, [List.range 101, (List.range 150).map (· + 101)]⟩ 1).getD 1 []).length = 3 ∧
      ceilPct 1 150 = 2 := by
  decide

/-- C3 counterexample: at the claim's own example input
(`M = [[0.7, 0.3], [0.4, 0.6]]`, `S = 0`), `_calc_polarity` returns
`1/20 = 0.05`, not the claimed `0.04`: the four squared deviations sum to
`0.10`, not `0.08`. -/
theorem c3_example_value_counterexample :
    calcPolarity [[7/10, 3/10], [4/10, 6/10]] [[0, 0], [0, 0]] = 1/20 ∧
      ((1 : ℚ)/20 ≠ 4/100) := by
  decide

/-- C6: a walk that reaches a node with no neighbors.  Node `2` of the
graph `{0 - 1, 2}` has no neighbors, and `2` is not a gatekeeper; the walk
started there hits `random.choice([])`, modelled by `deadEnd` — there is no
guard in the loop — and `polarity_score_multi` propagates the resulting
`IndexError` to its caller unhandled. -/
theorem c6_dead_end_unguarded :
    randomWalkMulti ⟨false, [0, 1, 2], [(0, 1, 1)]⟩ [[2], [1]] [[0], [1]]
        (fun _ _ => (0, 0)) (fun _ => 0) 5 2 = .deadEnd ∧
      polarityScoreMulti ⟨false, [0, 1, 2], [(0, 1, 1)]⟩ ⟨2, [[2], [1]]⟩ [[0], [1]]
        (fun _ _ => (0, 0)) (fun _ _ => 0) (fun _ _ _ => 0) 1 5 = .error .indexError :=
  ⟨rfl, rfl⟩

/-- C7 counterexample: the edge list `[(0, 0, 1)]` — a single self-loop —
passes through `gen_graph`'s filtering untouched (a self-looped node has
degree 2, hence is not isolated, and forms the largest component), so the
returned graph contains a self-loop edge: `gen_graph` never removes
self-loops. -/
theorem c7_self_loop_counterexample :
    (genGraph [(0, 0, 1)]).toOption.map (fun g => g.edges.any (fun e => e.1 == e.2.1)) =
      some true := by
  decide

/-- C8: evaluation of the per-unit pipeline at a failing input.  For a
(date, topic) unit whose edge query returns no rows, `gen_graph` raises
`IndexError` at `Gcc[0]` (the component list of the empty graph is empty)
before the caller's `nx.is_empty` guard can run, so the campaign loop
aborts instead of producing the zero-valued record. -/
theorem c8_empty_graph_eval (topic : List String)
    (communities : Graph → List (List Nat) × ℚ) (senti : Nat → List Nat → ℚ × ℚ)
    (startIdx : Nat → Nat → Nat) (walkσ : Nat → Nat → Nat → Nat) (I fuelW : Nat) :
    analyseUnit topic [] communities senti startIdx walkσ I fuelW = .error .indexError :=
  rfl

/-- C9 counterexample: after building the pipeline graph from the single
row `(0, 1, 1)`, node `0` is a neighbor of node `1` — the reverse
orientation of the only supplied row — because the pipeline calls
`gen_graph` with its default `directed=False`, producing an undirected
`nx.Graph`; under the claimed directed-edge semantics `adj 1 0` would be
`false`. -/
theorem c9_undirected_counterexample :
    (genGraph [(0, 1, 1)]).toOption.map (fun g => g.adj 1 0) = some true := by
  decide

/-- Helper: a fold over `List.range` that adds `f`/`g` componentwise into a
pair accumulator computes the pair of `Finset.range` sums. -/
theorem foldl_pair_add (f g : Nat → ℚ) (m : Nat) (acc : ℚ × ℚ) :
    (List.range m).foldl (fun a2 kk => (a2.1 + f kk, a2.2 + g kk)) acc
      = (acc.1 + ∑ k in Finset.range m, f k, acc.2 + ∑ k in Finset.range m, g k) := by
  induction m with
  | zero => simp
  | succ m ih =>
    rw [List.range_succ, List.foldl_append, ih]
    simp [Finset.sum_range_succ]
    constructor <;> ring

/-- C3 (amended): for every pair of `n × n` matrices with `n ≥ 2`,
`_calc_polarity` returns exactly
`((Σ (1/n − M[i][k])²) · 1/(n−1) + (Σ S[i][k]²) · 1/n²) / 2`; in
particular, for `n = 2`, `M = [[0.7, 0.3], [0.4, 0.6]]` and `S = 0` it
returns `0.05` (the claim's `0.04` miscounts the squared deviations). -/
theorem c3_formula_amended :
    (∀ (M S : Mat) (n : Nat), M.length = n → (∀ r ∈ M, r.length = n) →
        S.length = n → (∀ r ∈ S, r.length = n) → 2 ≤ n →
        calcPolarity M S = calcPolaritySpec M S n) ∧
      calcPolarity [[7/10, 3/10], [4/10, 6/10]] [[0, 0], [0, 0]] = 1/20 := by
  constructor
  · intro M S n hM _ _ _ _
    subst hM
    unfold calcPolarity calcPolaritySpec
    simp only [foldl_pair_add]
    simp only [zero_add]
  · decide

/-- C3 witness: the amended formula theorem applied at the claim's own
`2 × 2` example matrices. -/
theorem c3_formula_witness :
    calcPolarity [[7/10, 3/10], [4/10, 6/10]] [[0, 0], [0, 0]]
      = calcPolaritySpec [[7/10, 3/10], [4/10, 6/10]] [[0, 0], [0, 0]] 2 :=
  c3_formula_amended.1 [[7/10, 3/10], [4/10, 6/10]] [[0, 0], [0, 0]] 2 rfl
    (by decide) rfl (by decide) (by decide)

/-- C4: whenever the partitioner yields at most one community for the
unit's (non-edgeless) graph, the per-unit pipeline produces the record of
campaign_analysis.py line 100 — `pscore = 0.0` with the `[[]]` placeholder
matrices — and the result is a value in which none of the simulator's
inputs (`senti`, `startIdx`, `walkσ`, `I`, `fuelW`) occur: the simulator is
never invoked. -/
theorem c4_single_community_short_circuit (topic : List String)
    (rows : List (Nat × Nat × ℚ)) (communities : Graph → List (List Nat) × ℚ)
    (senti : Nat → List Nat → ℚ × ℚ) (startIdx : Nat → Nat → Nat)
    (walkσ : Nat → Nat → Nat → Nat) (I fuelW : Nat) (G : Graph)
    (hG : genGraph rows = .ok G) (hne : G.edges.isEmpty = false)
    (hn : (communities G).1.length ≤ 1) :
    analyseUnit topic rows communities senti startIdx walkσ I fuelW =
      .ok ⟨topic, 0, (communities G).1.length, (communities G).2, [[]], [[]], [[]]⟩ := by
  have h2 : ¬ ((communities G).1.length > 1) := by omega
  simp [analyseUnit, hG, hne, genPartitions, h2]

/-- C4 witness: a one-edge graph whose partitioner reports a single
community. -/
theorem c4_single_community_witness :
    analyseUnit [] [(0, 1, 1)] (fun _ => ([[0, 1]], 1/2)) (fun _ _ => (0, 0))
        (fun _ _ => 0) (fun _ _ _ => 0) 7 9 =
      .ok ⟨[], 0, 1, 1/2, [[]], [[]], [[]]⟩ :=
  c4_single_community_short_circuit [] [(0, 1, 1)] (fun _ => ([[0, 1]], 1/2))
    (fun _ _ => (0, 0)) (fun _ _ => 0) (fun _ _ _ => 0) 7 9
    ⟨false, [0, 1], [(0, 1, 1)]⟩ rfl rfl (by decide)

/-- Helper: adding a row never changes the `directed` flag. -/
theorem addRow_directed (G : Graph) (r : Nat × Nat × ℚ) :
    (addRow G r).directed = G.directed := by
  unfold addRow; split <;> rfl

/-- Helper: folding rows into a graph never changes the `directed` flag. -/
theorem foldl_addRow_directed (rows : List (Nat × Nat × ℚ)) :
    ∀ (G : Graph), (rows.foldl addRow G).directed = G.directed := by
  induction rows with
  | nil => intro G; rfl
  | cons r rs ih => intro G; rw [List.foldl_cons, ih, addRow_directed]

/-- Helper: a successful `gen_graph` run is the subgraph of the filtered
graph induced by the component `largestComponent` selected. -/
theorem genGraph_ok (rows : List (Nat × Nat × ℚ)) (G : Graph)
    (hG : genGraph rows = .ok G) :
    ∃ c, largestComponent (removeIsolates (fromEdgeList false rows)) = some c ∧
      G = (removeIsolates (fromEdgeList false rows)).subgraphOn c := by
  unfold genGraph at hG
  cases hl : largestComponent (removeIsolates (fromEdgeList false rows)) with
  | none => rw [hl] at hG; exact absurd hG (by simp)
  | some c =>
    rw [hl] at hG
    simp only at hG
    exact ⟨c, rfl, (Except.ok.inj hG).symm⟩

/-- C9 (amended): the graph the pipeline hands to the partitioner and
simulator is *undirected* — `gen_graph` is called with its default
`directed=False`, so each `(source_id, target_id)` row produces a
symmetric adjacency. -/
theorem c9_pipeline_graph_undirected (rows : List (Nat × Nat × ℚ)) (G : Graph)
    (hG : genGraph rows = .ok G) :
    G.directed = false ∧ ∀ a b, G.adj a b = G.adj b a := by
  obtain ⟨c, -, hGe⟩ := genGraph_ok rows G hG
  have hd : G.directed = false := by
    rw [hGe]
    show (fromEdgeList false rows).directed = false
    exact foldl_addRow_directed rows ⟨false, [], []⟩
  refine ⟨hd, fun a b => ?_⟩
  unfold Graph.adj
  rw [hd]
  exact congrArg _ (funext fun e => by simp [Bool.or_comm])

/-- C9 witness: adjacency symmetry of the concrete pipeline graph built
from the single row `(0, 1, 1)`. -/
theorem c9_pipeline_graph_witness :
    Graph.adj ⟨false, [0, 1], [(0, 1, 1)]⟩ 0 1 =
      Graph.adj ⟨false, [0, 1], [(0, 1, 1)]⟩ 1 0 :=
  (c9_pipeline_graph_undirected [(0, 1, 1)] ⟨false, [0, 1], [(0, 1, 1)]⟩ rfl).2 0 1

/-- Helper: out-of-range `getD` on a matrix yields the empty row. -/
theorem getD_nil_of_le (l : Mat) (i : Nat) (h : l.length ≤ i) : l.getD i [] = [] := by
  simp [List.getD_eq_getElem?_getD, List.getElem?_eq_none h]

/-- Helper: `List.set` leaves other rows untouched. -/
theorem getD_set_ne (M : Mat) (k i : Nat) (r : List ℚ) (h : i ≠ k) :
    (M.set k r).getD i [] = M.getD i [] := by
  simp [List.getD_eq_getElem?_getD, List.getElem?_set_ne (Ne.symm h)]

/-- Helper: `List.set` replaces the targeted row. -/
theorem getD_set_self (M : Mat) (k : Nat) (r : List ℚ) (h : k < M.length) :
    (M.set k r).getD k [] = r := by
  simp [List.getD_eq_getElem?_getD, List.getElem?_set_self', h]

/-- Helper: the `+=`-update of one in-range entry raises the row sum by
exactly the added amount. -/
theorem set_sum (row : List ℚ) : ∀ (j : Nat), j < row.length → ∀ (d : ℚ),
    (row.set j (row.getD j 0 + d)).sum = row.sum + d := by
  induction row with
  | nil => intro j h; simp at h
  | cons r rs ih =>
    intro j hj d
    cases j with
    | zero => simp [List.getD]; ring
    | succ j =>
      simp only [List.set_cons_succ, List.sum_cons, List.getD_cons_succ]
      rw [ih j (by simpa using hj) d]
      ring

/-- Helper: a successful `(x, k)` simulation step adds exactly
`1/iterations` to the sum of row `k` of the crossing matrix and leaves
every other row unchanged. -/
theorem stepWalk_ok (G : Graph) (comms infl : List (List Nat))
    (senti : Nat → List Nat → ℚ × ℚ) (startIdx : Nat → Nat → Nat)
    (walkσ : Nat → Nat → Nat → Nat) (I fuelW x k : Nat) (st st' : Mat × Mat)
    (h : stepWalk G comms infl senti startIdx walkσ I fuelW x k st = .ok st') :
    (∀ i, i ≠ k → st'.1.getD i [] = st.1.getD i []) ∧
      rowSum st'.1 k = rowSum st.1 k + 1 / (I : ℚ) := by
  unfold stepWalk at h
  dsimp only at h
  split at h
  · exact absurd h (by simp)
  · split at h
    · exact absurd h (by simp)
    · exact absurd h (by simp)
    · rename_i side sent heq
      split at h
      · split at h
        · rename_i hlen hside
          have hst : st' = (st.1.set k ((st.1.getD k []).set side
              ((st.1.getD k []).getD side 0 + 1 / (I : ℚ))),
                st.2.set k (addSentRow (I : ℚ) (st.2.getD k []) sent)) :=
            (Except.ok.inj h).symm
          have hk : k < st.1.length := by
            by_contra hk
            push_neg at hk
            rw [getD_nil_of_le st.1 k hk] at hside
            simp at hside
          constructor
          · intro i hi
            rw [hst]
            exact getD_set_ne st.1 k i _ hi
          · rw [hst]
            unfold rowSum
            rw [getD_set_self st.1 k _ hk]
            exact set_sum (st.1.getD k []) side hside (1 / (I : ℚ))
        · exact absurd h (by simp)
      · exact absurd h (by simp)

/-- Helper: equal rows have equal row sums. -/
theorem rowSum_congr (M M' : Mat) (i : Nat) (h : M'.getD i [] = M.getD i []) :
    rowSum M' i = rowSum M i := by
  unfold rowSum; rw [h]

/-- Helper: a successful pass of the inner `for k in range(0, n)` loop adds
`1/iterations` to the sum of each visited row exactly once. -/
theorem runRows_ok (G : Graph) (comms infl : List (List Nat))
    (senti : Nat → List Nat → ℚ × ℚ) (startIdx : Nat → Nat → Nat)
    (walkσ : Nat → Nat → Nat → Nat) (I fuelW x : Nat) :
    ∀ (ks : List Nat) (st st' : Mat × Mat), ks.Nodup →
      runRows G comms infl senti startIdx walkσ I fuelW x ks st = .ok st' →
      ∀ i, rowSum st'.1 i = rowSum st.1 i + (if i ∈ ks then 1 / (I : ℚ) else 0) := by
  intro ks
  induction ks with
  | nil =>
    intro st st' _ h i
    simp only [runRows] at h
    rw [(Except.ok.inj h).symm]
    simp
  | cons k ks ih =>
    intro st st' hnd h i
    simp only [runRows] at h
    cases hs : stepWalk G comms infl senti startIdx walkσ I fuelW x k st with
    | error e => rw [hs] at h; exact absurd h (by simp [Except.bind])
    | ok st1 =>
      rw [hs] at h
      have h1 : runRows G comms infl senti startIdx walkσ I fuelW x ks st1 = .ok st' := h
      obtain ⟨hother, hrow⟩ := stepWalk_ok G comms infl senti startIdx walkσ I fuelW x k st st1 hs
      have hmem := List.nodup_cons.mp hnd
      by_cases hik : i = k
      · subst hik
        rw [ih st1 st' hmem.2 h1 i]
        simp [hmem.1, hrow]
      · rw [ih st1 st' hmem.2 h1 i]
        rw [rowSum_congr st.1 st1.1 i (hother i hik)]
        simp [List.mem_cons, hik]

/-- Helper: a successful run of the outer `for x in range(0, iterations)`
loop adds `|xs| · 1/iterations` to the sum of every row below `n`. -/
theorem runIters_ok (G : Graph) (comms infl : List (List Nat))
    (senti : Nat → List Nat → ℚ × ℚ) (startIdx : Nat → Nat → Nat)
    (walkσ : Nat → Nat → Nat → Nat) (I fuelW n : Nat) :
    ∀ (xs : List Nat) (st st' : Mat × Mat),
      runIters G comms infl senti startIdx walkσ I fuelW n xs st = .ok st' →
      ∀ i, i < n → rowSum st'.1 i = rowSum st.1 i + xs.length * (1 / (I : ℚ)) := by
  intro xs
  induction xs with
  | nil =>
    intro st st' h i _
    simp only [runIters] at h
    rw [(Except.ok.inj h).symm]
    simp
  | cons x xs ih =>
    intro st st' h i hi
    simp only [runIters] at h
    cases hs : runRows G comms infl senti startIdx walkσ I fuelW x (List.range n) st with
    | error e => rw [hs] at h; exact absurd h (by simp [Except.bind])
    | ok st1 =>
      rw [hs] at h
      have h1 := runRows_ok G comms infl senti startIdx walkσ I fuelW x (List.range n)
        st st1 (List.nodup_range n) hs i
      rw [ih st1 st' h i hi, h1]
      simp [List.mem_range.mpr hi]
      ring

/-- Helper: in-range rows of the `n × n` zero matrix. -/
theorem getD_replicate (n i : Nat) (r : List ℚ) (hi : i < n) :
    (List.replicate n r).getD i [] = r := by
  simp [List.getD_eq_getElem?_getD, List.getElem?_replicate, hi]

/-- C5: whenever `polarity_score_multi` returns (so every one of the
`n · I` walks terminated at a gatekeeper) and `I ≥ 1`, each row `i` of the
crossing matrix sums to exactly 1 under exact rational arithmetic: each of
the `I` walks started in community `i` adds exactly `1/I` to exactly one
entry of row `i`. -/
theorem c5_crossing_row_sums (G : Graph) (parts : Parts) (infl : List (List Nat))
    (senti : Nat → List Nat → ℚ × ℚ) (startIdx : Nat → Nat → Nat)
    (walkσ : Nat → Nat → Nat → Nat) (I fuelW : Nat) (ps : ℚ) (M Ms : Mat)
    (hI : 1 ≤ I)
    (h : polarityScoreMulti G parts infl senti startIdx walkσ I fuelW = .ok (ps, M, Ms)) :
    ∀ i, i < parts.count → rowSum M i = 1 := by
  intro i hi
  unfold polarityScoreMulti at h
  dsimp only at h
  cases hr : runIters G parts.comms infl senti startIdx walkσ I fuelW parts.count
      (List.range I)
      (List.replicate parts.count (List.replicate parts.count (0 : ℚ)),
       List.replicate parts.count (List.replicate parts.count (0 : ℚ))) with
  | error e => rw [hr] at h; exact absurd h (by simp [Except.bind])
  | ok st =>
    rw [hr] at h
    simp only [Except.bind] at h
    have hM : M = st.1 := by
      cases hc : calcPolarityE st.1 st.2 with
      | error e => rw [hc] at h; exact absurd h (by simp [Except.bind, Except.map])
      | ok q =>
        rw [hc] at h
        simp only [Except.bind, Except.map] at h
        have := Except.ok.inj h
        exact (congrArg (fun p => p.2.1) this).symm
    have hrun := runIters_ok G parts.comms infl senti startIdx walkσ I fuelW parts.count
      (List.range I) _ st hr i hi
    rw [hM, hrun]
    unfold rowSum
    rw [getD_replicate parts.count i _ hi]
    have hIne : (I : ℚ) ≠ 0 := by
      have : (0 : ℚ) < (I : ℚ) := by exact_mod_cast hI
      exact ne_of_gt this
    simp [List.sum_replicate]
    field_simp

/-- C5 witness: a two-community instance with `I = 1` in which both walks
terminate, giving the crossing matrix `[[0, 1], [1, 0]]` with unit row
sums. -/
theorem c5_crossing_row_sums_witness :
    rowSum [[0, 1], [1, 0]] 0 = 1 ∧ rowSum [[0, 1], [1, 0]] 1 = 1 :=
  ⟨c5_crossing_row_sums ⟨false, [0, 1], [(0, 1, 1)]⟩ ⟨2, [[0], [1]]⟩ [[0], [1]]
      (fun _ _ => (0, 0)) (fun _ _ => 0) (fun _ _ _ => 0) 1 2 (1/2)
      [[0, 1], [1, 0]] [[0, 0], [0, 0]] (by decide) rfl 0 (by decide),
    c5_crossing_row_sums ⟨false, [0, 1], [(0, 1, 1)]⟩ ⟨2, [[0], [1]]⟩ [[0], [1]]
      (fun _ _ => (0, 0)) (fun _ _ => 0) (fun _ _ _ => 0) 1 2 (1/2)
      [[0, 1], [1, 0]] [[0, 0], [0, 0]] (by decide) rfl 1 (by decide)⟩

/-- Helper: the default value of `getLastD` is irrelevant on a nonempty
list. -/
theorem getLastD_irrel (l : List Nat) (h : l ≠ []) (a b : Nat) :
    l.getLastD a = l.getLastD b := by
  cases l with
  | nil => exact absurd rfl h
  | cons x xs => rfl

/-- Helper: whenever the walk loop terminates at a gatekeeper, the visited
trace is nonempty, the returned sentiment accumulator equals the initial
accumulator plus one vote per community for each visited node, and the
reported side is the last-matching gatekeeper row of the final visited
node. -/
theorem walkAux_ok_trace (G : Graph) (parts infl : List (List Nat))
    (senti : Nat → List Nat → ℚ × ℚ) (σ : Nat → Nat) :
    ∀ (fuel t node : Nat) (sacc : List ℚ) (side : Nat) (sent : List ℚ),
      walkAux G parts infl senti σ fuel t node sacc = .ok side sent →
      walkTrace G infl σ fuel t node ≠ [] ∧
        sent = votesAlong parts senti sacc (walkTrace G infl σ fuel t node) ∧
        findSideLast infl ((walkTrace G infl σ fuel t node).getLastD 0) = some side := by
  intro fuel
  induction fuel with
  | zero => intro t node sacc side sent h; exact absurd h (by simp [walkAux])
  | succ fuel ih =>
    intro t node sacc side sent h
    unfold walkAux at h
    dsimp only at h
    by_cases hns : (G.neighbors node).isEmpty
    · rw [if_pos hns] at h
      exact absurd h (by simp)
    · rw [if_neg hns] at h
      cases hfs : findSideLast infl
          ((G.neighbors node).getD (σ t % (G.neighbors node).length) 0) with
      | some i =>
        rw [hfs] at h
        have hside : side = i := (WalkRes.ok.inj h).1.symm
        have hsent : sent = List.zipWith (fun s p => s + voteOf
            (senti ((G.neighbors node).getD (σ t % (G.neighbors node).length) 0) p))
            sacc parts := (WalkRes.ok.inj h).2.symm
        have htr : walkTrace G infl σ (fuel + 1) t node =
            [(G.neighbors node).getD (σ t % (G.neighbors node).length) 0] := by
          conv_lhs => rw [walkTrace]
          rw [if_neg hns]
          dsimp only
          rw [hfs]
        rw [htr]
        refine ⟨by simp, ?_, ?_⟩
        · rw [hsent]
          rfl
        · show findSideLast infl ((G.neighbors node).getD (σ t % (G.neighbors node).length) 0) = some side
          rw [hfs, hside]
      | none =>
        rw [hfs] at h
        obtain ⟨hne, hsent, hlast⟩ := ih (t + 1)
          ((G.neighbors node).getD (σ t % (G.neighbors node).length) 0)
          (List.zipWith (fun s p => s + voteOf
            (senti ((G.neighbors node).getD (σ t % (G.neighbors node).length) 0) p))
            sacc parts) side sent h
        have htr : walkTrace G infl σ (fuel + 1) t node =
            ((G.neighbors node).getD (σ t % (G.neighbors node).length) 0) ::
              walkTrace G infl σ fuel (t + 1)
                ((G.neighbors node).getD (σ t % (G.neighbors node).length) 0) := by
          conv_lhs => rw [walkTrace]
          rw [if_neg hns]
          dsimp only
          rw [hfs]
        rw [htr]
        refine ⟨by simp, ?_, ?_⟩
        · rw [hsent]
          rfl
        · rw [List.getLastD_cons]
          rw [getLastD_irrel _ hne _ 0]
          exact hlast

/-- C10: a successful `_random_walk_multi` run always makes at least one
move before gatekeeper membership is tested (`walkTrace ... ≠ []`, with no
assumption on the start node — in particular a start node that is itself a
gatekeeper does not terminate the walk at step 0), and the returned
sentiment accumulator is exactly the votes of the nodes visited after the
start, the terminating gatekeeper included and the start node itself
excluded (the vote fold starts from the zero accumulator over the visited
trace, which begins at the first move). -/
theorem c10_walk_moves_first (G : Graph) (parts infl : List (List Nat))
    (senti : Nat → List Nat → ℚ × ℚ) (σ : Nat → Nat) (fuel node side : Nat)
    (sent : List ℚ)
    (h : randomWalkMulti G parts infl senti σ fuel node = .ok side sent) :
    walkTrace G infl σ fuel 0 node ≠ [] ∧
      sent = votesAlong parts senti (parts.map (fun _ => 0))
        (walkTrace G infl σ fuel 0 node) ∧
      findSideLast infl ((walkTrace G infl σ fuel 0 node).getLastD 0) = some side :=
  walkAux_ok_trace G parts infl senti σ fuel 0 node (parts.map (fun _ => 0)) side sent h

/-- C10 witness: on the one-edge graph `0 - 1` with gatekeeper rows
`[[0], [1]]`, a walk started at the gatekeeper node `0` still moves, visits
exactly `[1]`, and terminates with side `1` and the votes of node `1`
only. -/
theorem c10_walk_moves_first_witness :
    walkTrace ⟨false, [0, 1], [(0, 1, 1)]⟩ [[0], [1]] (fun _ => 0) 3 0 0 ≠ [] ∧
      [0, 0] = votesAlong [[0], [1]] (fun _ _ => (0, 0))
        ([[0], [1]].map (fun _ => 0))
        (walkTrace ⟨false, [0, 1], [(0, 1, 1)]⟩ [[0], [1]] (fun _ => 0) 3 0 0) ∧
      findSideLast [[0], [1]]
        ((walkTrace ⟨false, [0, 1], [(0, 1, 1)]⟩ [[0], [1]] (fun _ => 0) 3 0 0).getLastD 0) =
        some 1 :=
  c10_walk_moves_first ⟨false, [0, 1], [(0, 1, 1)]⟩ [[0], [1]] [[0], [1]]
    (fun _ _ => (0, 0)) (fun _ => 0) 3 0 1 [0, 0] rfl

/-- Helper: a node set is contained in its one-step expansion. -/
theorem subset_expandOnce (G : Graph) (S : List Nat) : S ⊆ expandOnce G S :=
  List.subset_append_left S _

/-- Helper: expansion stays inside the graph's node set. -/
theorem expandOnce_subset (G : Graph) (S : List Nat) (hS : S ⊆ G.nodes) :
    expandOnce G S ⊆ G.nodes := by
  unfold expandOnce
  exact List.append_subset.mpr ⟨hS, fun x hx => (List.mem_filter.mp hx).1⟩

/-- Helper: expansion preserves duplicate-freeness. -/
theorem expandOnce_nodup (G : Graph) (S : List Nat) (hG : G.nodes.Nodup)
    (hS : S.Nodup) : (expandOnce G S).Nodup := by
  unfold expandOnce
  refine List.Nodup.append hS (List.Nodup.filter _ hG) ?_
  intro a haS hafilter
  have hp := (List.mem_filter.mp hafilter).2
  simp only [Bool.and_eq_true, Bool.not_eq_true'] at hp
  have : S.contains a = true := by simpa using haS
  rw [hp.1] at this
  exact Bool.false_ne_true this

/-- Helper: a fixpoint of the expansion is closed under adjacency into the
node set. -/
theorem expandOnce_fix_closed (G : Graph) (S : List Nat)
    (h : expandOnce G S = S) :
    ∀ b ∈ G.nodes, (∃ a ∈ S, G.adj a b = true) → b ∈ S := by
  intro b hb hex
  obtain ⟨a, haS, hab⟩ := hex
  by_cases hbS : b ∈ S
  · exact hbS
  · have hcb : S.contains b = false := by simpa using hbS
    have hbf : b ∈ G.nodes.filter (fun b => !(S.contains b) && S.any (fun a => G.adj a b)) := by
      refine List.mem_filter.mpr ⟨hb, ?_⟩
      simp only [Bool.and_eq_true, Bool.not_eq_true']
      exact ⟨hcb, List.any_eq_true.mpr ⟨a, haS, hab⟩⟩
    have hmem : b ∈ expandOnce G S := List.mem_append.mpr (Or.inr hbf)
    rw [h] at hmem
    exact hmem

/-- Helper: a non-fixpoint expansion strictly grows the set. -/
theorem expandOnce_grow (G : Graph) (S : List Nat) (h : expandOnce G S ≠ S) :
    S.length + 1 ≤ (expandOnce G S).length := by
  unfold expandOnce at h ⊢
  cases hf : G.nodes.filter (fun b => !(S.contains b) && S.any (fun a => G.adj a b)) with
  | nil => rw [hf] at h; simp at h
  | cons x xs =>
    simp [List.length_append]

/-- Helper: every expansion iterate from a node is duplicate-free and
contained in the node set. -/
theorem iterate_nodup_subset (G : Graph) (v : Nat) (hG : G.nodes.Nodup)
    (hv : v ∈ G.nodes) : ∀ k, ((expandOnce G)^[k] [v]).Nodup ∧ (expandOnce G)^[k] [v] ⊆ G.nodes := by
  intro k
  induction k with
  | zero => exact ⟨List.nodup_singleton v, by simpa using hv⟩
  | succ k ih =>
    rw [Function.iterate_succ_apply']
    exact ⟨expandOnce_nodup G _ hG ih.1, expandOnce_subset G _ ih.2⟩

/-- Helper: while no fixpoint is reached, the `k`-th iterate has more than
`k` elements. -/
theorem iterate_growth (G : Graph) (v : Nat) :
    ∀ k, (∀ j < k, expandOnce G ((expandOnce G)^[j] [v]) ≠ (expandOnce G)^[j] [v]) →
      k + 1 ≤ ((expandOnce G)^[k] [v]).length := by
  intro k
  induction k with
  | zero => intro _; simp
  | succ k ih =>
    intro hall
    have h1 : k + 1 ≤ ((expandOnce G)^[k] [v]).length :=
      ih (fun j hj => hall j (Nat.lt_succ_of_lt hj))
    have h2 := expandOnce_grow G ((expandOnce G)^[k] [v]) (hall k (Nat.lt_succ_self k))
    rw [Function.iterate_succ_apply']
    omega

/-- Helper: after `|nodes|` expansions the component of a node is a
fixpoint (pigeonhole on duplicate-free subsets of the node list). -/
theorem compOf_fix (G : Graph) (v : Nat) (hG : G.nodes.Nodup) (hv : v ∈ G.nodes) :
    expandOnce G (compOf G v) = compOf G v := by
  unfold compOf
  by_cases hefix : ∃ j < G.nodes.length,
      expandOnce G ((expandOnce G)^[j] [v]) = (expandOnce G)^[j] [v]
  · obtain ⟨j, hj, hfix⟩ := hefix
    have hstable : (expandOnce G)^[G.nodes.length] [v] = (expandOnce G)^[j] [v] := by
      have : G.nodes.length = (G.nodes.length - j) + j := by omega
      rw [this, Function.iterate_add_apply]
      exact Function.iterate_fixed hfix (G.nodes.length - j)
    rw [hstable]
    exact hfix
  · push_neg at hefix
    have hgrow := iterate_growth G v G.nodes.length hefix
    have hle := ((iterate_nodup_subset G v hG hv G.nodes.length).1.subperm
      (iterate_nodup_subset G v hG hv G.nodes.length).2).length_le
    omega

/-- Helper: a connected component is closed under adjacency. -/
theorem compOf_closed (G : Graph) (w : Nat) (hG : G.nodes.Nodup) (hw : w ∈ G.nodes)
    (a b : Nat) (ha : a ∈ compOf G w) (hb : b ∈ G.nodes) (hab : G.adj a b = true) :
    b ∈ compOf G w :=
  expandOnce_fix_closed G (compOf G w) (compOf_fix G w hG hw) b hb ⟨a, ha, hab⟩
/-- Helper: every emitted component is the component of one of the scanned
nodes. -/
theorem componentsAux_mem (G : Graph) :
    ∀ (vs seen : List Nat) (c : List Nat), c ∈ componentsAux G vs seen →
      ∃ w, w ∈ vs ∧ c = compOf G w := by
  intro vs
  induction vs with
  | nil => intro seen c hc; simp [componentsAux] at hc
  | cons v vs ih =>
    intro seen c hc
    unfold componentsAux at hc
    by_cases hs : seen.contains v
    · rw [if_pos hs] at hc
      obtain ⟨w, hw, hcw⟩ := ih seen c hc
      exact ⟨w, List.mem_cons_of_mem v hw, hcw⟩
    · rw [if_neg hs] at hc
      cases hc with
      | head => exact ⟨v, List.mem_cons_self v vs, rfl⟩
      | tail _ h =>
        obtain ⟨w, hw, hcw⟩ := ih _ c h
        exact ⟨w, List.mem_cons_of_mem v hw, hcw⟩

/-- Helper: the running best of the size-maximum fold is the initial
candidate or one of the folded elements. -/
theorem foldl_best_mem (cs : List (List Nat)) :
    ∀ (best : List Nat),
      cs.foldl (fun best d => if d.length > best.length then d else best) best = best ∨
        cs.foldl (fun best d => if d.length > best.length then d else best) best ∈ cs := by
  induction cs with
  | nil => intro best; exact Or.inl rfl
  | cons d ds ih =>
    intro best
    simp only [List.foldl_cons]
    by_cases hd : d.length > best.length
    · rw [if_pos hd]
      cases ih d with
      | inl h => refine Or.inr ?_; rw [h]; exact List.mem_cons_self d ds
      | inr h => exact Or.inr (List.mem_cons_of_mem d h)
    · rw [if_neg hd]
      cases ih best with
      | inl h => exact Or.inl h
      | inr h => exact Or.inr (List.mem_cons_of_mem d h)

/-- Helper: the selected largest component is one of the graph's
components. -/
theorem largestComponent_mem (G : Graph) (c : List Nat)
    (h : largestComponent G = some c) : c ∈ connectedComponents G := by
  unfold largestComponent at h
  cases hc : connectedComponents G with
  | nil => rw [hc] at h; exact absurd h (by simp)
  | cons c0 cs =>
    rw [hc] at h
    have := Option.some.inj h
    cases foldl_best_mem cs c0 with
    | inl he => rw [← this, he]; exact List.mem_cons_self c0 cs
    | inr he => rw [← this]; exact List.mem_cons_of_mem c0 he

/-- Helper: node insertion makes the node a member. -/
theorem mem_insertNode_self (ns : List Nat) (v : Nat) : v ∈ insertNode ns v := by
  unfold insertNode
  by_cases h : ns.contains v
  · rw [if_pos h]; simpa using h
  · rw [if_neg h]; simp

/-- Helper: node insertion only grows the node list. -/
theorem subset_insertNode (ns : List Nat) (v : Nat) : ns ⊆ insertNode ns v := by
  unfold insertNode
  by_cases h : ns.contains v
  · rw [if_pos h]; exact fun x hx => hx
  · rw [if_neg h]; exact List.subset_append_left ns [v]

/-- Helper: node insertion preserves duplicate-freeness. -/
theorem insertNode_nodup (ns : List Nat) (v : Nat) (h : ns.Nodup) :
    (insertNode ns v).Nodup := by
  unfold insertNode
  by_cases hc : ns.contains v
  · rw [if_pos hc]; exact h
  · rw [if_neg hc]
    refine List.Nodup.append h (List.nodup_singleton v) ?_
    intro a ha hav
    rw [List.mem_singleton.mp hav] at ha
    have : ns.contains v = true := by simpa using ha
    rw [this] at hc
    exact hc rfl

/-- Helper: adding an edge row preserves duplicate-freeness of nodes. -/
theorem addRow_nodes_nodup (G : Graph) (r : Nat × Nat × ℚ) (h : G.nodes.Nodup) :
    (addRow G r).nodes.Nodup := by
  unfold addRow
  dsimp only
  split <;> exact insertNode_nodup _ _ (insertNode_nodup _ _ h)

/-- Helper: adding an edge row preserves the invariant that every edge's
endpoints are nodes. -/
theorem addRow_endpoints (G : Graph) (r : Nat × Nat × ℚ)
    (h : ∀ e ∈ G.edges, e.1 ∈ G.nodes ∧ e.2.1 ∈ G.nodes) :
    ∀ e ∈ (addRow G r).edges, e.1 ∈ (addRow G r).nodes ∧ e.2.1 ∈ (addRow G r).nodes := by
  unfold addRow
  dsimp only
  have hsub : G.nodes ⊆ insertNode (insertNode G.nodes r.1) r.2.1 :=
    fun x hx => subset_insertNode _ _ (subset_insertNode _ _ hx)
  split
  · intro e he
    unfold setWeight at he
    obtain ⟨e0, he0, heq⟩ := List.mem_map.mp he
    have h0 := h e0 he0
    have hends : e.1 = e0.1 ∧ e.2.1 = e0.2.1 := by
      by_cases hc : ((e0.1 == r.1 && e0.2.1 == r.2.1) ||
          (!G.directed && e0.1 == r.2.1 && e0.2.1 == r.1)) = true
      · rw [if_pos hc] at heq
        rw [← heq]
        exact ⟨rfl, rfl⟩
      · rw [if_neg hc] at heq
        rw [← heq]
        exact ⟨rfl, rfl⟩
    rw [hends.1, hends.2]
    exact ⟨hsub h0.1, hsub h0.2⟩
  · intro e he
    cases List.mem_append.mp he with
    | inl h0 => exact ⟨hsub (h e h0).1, hsub (h e h0).2⟩
    | inr h1 =>
      rw [List.mem_singleton.mp h1]
      exact ⟨subset_insertNode _ _ (mem_insertNode_self _ _),
        mem_insertNode_self _ _⟩
/-- Helper: graphs built from edge rows have duplicate-free node lists. -/
theorem fromEdgeList_nodup (rows : List (Nat × Nat × ℚ)) :
    ∀ (G0 : Graph), G0.nodes.Nodup → (rows.foldl addRow G0).nodes.Nodup := by
  induction rows with
  | nil => intro G0 h; exact h
  | cons r rs ih => intro G0 h; exact ih (addRow G0 r) (addRow_nodes_nodup G0 r h)

/-- Helper: in a graph built from edge rows every edge endpoint is a
node. -/
theorem fromEdgeList_endpoints (rows : List (Nat × Nat × ℚ)) :
    ∀ (G0 : Graph), (∀ e ∈ G0.edges, e.1 ∈ G0.nodes ∧ e.2.1 ∈ G0.nodes) →
      ∀ e ∈ (rows.foldl addRow G0).edges,
        e.1 ∈ (rows.foldl addRow G0).nodes ∧ e.2.1 ∈ (rows.foldl addRow G0).nodes := by
  induction rows with
  | nil => intro G0 h; exact h
  | cons r rs ih => intro G0 h; exact ih (addRow G0 r) (addRow_endpoints G0 r h)

/-- Helper: isolate removal keeps every edge endpoint a node (an endpoint
is never isolated). -/
theorem removeIsolates_endpoints (G : Graph)
    (h : ∀ e ∈ G.edges, e.1 ∈ G.nodes ∧ e.2.1 ∈ G.nodes) :
    ∀ e ∈ (removeIsolates G).edges,
      e.1 ∈ (removeIsolates G).nodes ∧ e.2.1 ∈ (removeIsolates G).nodes := by
  intro e he
  have he' : e ∈ G.edges := he
  have h0 := h e he'
  have hf : ∀ x, x ∈ G.nodes →
      G.edges.any (fun e' => e'.1 == x || e'.2.1 == x) = true →
      x ∈ (removeIsolates G).nodes := by
    intro x hx hax
    refine List.mem_filter.mpr ⟨hx, ?_⟩
    simp [Graph.isolated, hax]
  exact ⟨hf e.1 h0.1 (List.any_eq_true.mpr ⟨e, he', by simp⟩),
    hf e.2.1 h0.2 (List.any_eq_true.mpr ⟨e, he', by simp⟩)⟩

/-- Helper: every node surviving isolate removal has an incident edge. -/
theorem removeIsolates_incident (G : Graph) (v : Nat)
    (hv : v ∈ (removeIsolates G).nodes) :
    v ∈ G.nodes ∧ ∃ e ∈ G.edges, (e.1 == v || e.2.1 == v) = true := by
  unfold removeIsolates at hv
  have h1 := List.mem_filter.mp hv
  refine ⟨h1.1, ?_⟩
  have h2 := h1.2
  simp only [Bool.not_eq_true'] at h2
  unfold Graph.isolated at h2
  rw [Bool.not_eq_false'] at h2
  exact List.any_eq_true.mp h2

/-- C7 (amended): `gen_graph` does *not* remove self-loops (see the
counterexample), but the second half of the claim holds: every node of the
returned graph has degree at least 1.  A retained node is non-isolated, its
incident edge's other endpoint lies in the same (adjacency-closed) largest
component, so the edge survives the induced-subgraph filter. -/
theorem c7_retained_degree (rows : List (Nat × Nat × ℚ)) (G2 : Graph)
    (hG : genGraph rows = .ok G2) :
    ∀ v ∈ G2.nodes, 1 ≤ degree G2 v := by
  obtain ⟨c, hc, hGe⟩ := genGraph_ok rows G2 hG
  have hnd0 : (fromEdgeList false rows).nodes.Nodup :=
    fromEdgeList_nodup rows ⟨false, [], []⟩ List.nodup_nil
  have hP0 : ∀ e ∈ (fromEdgeList false rows).edges,
      e.1 ∈ (fromEdgeList false rows).nodes ∧ e.2.1 ∈ (fromEdgeList false rows).nodes :=
    fromEdgeList_endpoints rows ⟨false, [], []⟩ (by intro e he; exact absurd he (List.not_mem_nil e))
  have hnd : (removeIsolates (fromEdgeList false rows)).nodes.Nodup :=
    List.Nodup.filter _ hnd0
  have hP := removeIsolates_endpoints (fromEdgeList false rows) hP0
  have hdir : (removeIsolates (fromEdgeList false rows)).directed = false :=
    foldl_addRow_directed rows ⟨false, [], []⟩
  obtain ⟨w, hw, hcw⟩ := componentsAux_mem (removeIsolates (fromEdgeList false rows))
    (removeIsolates (fromEdgeList false rows)).nodes [] c
    (largestComponent_mem _ c hc)
  intro v hv
  rw [hGe] at hv
  have hv1 : v ∈ (removeIsolates (fromEdgeList false rows)).nodes :=
    (List.mem_filter.mp hv).1
  have hvc : v ∈ c := by
    have := (List.mem_filter.mp hv).2
    simpa using this
  obtain ⟨-, e, heE, hinc⟩ := removeIsolates_incident (fromEdgeList false rows) v hv1
  have heE1 : e ∈ (removeIsolates (fromEdgeList false rows)).edges := heE
  have hinc2 : e.1 = v ∨ e.2.1 = v := by simpa using hinc
  cases hinc2 with
  | inl he1 =>
    have hadj : (removeIsolates (fromEdgeList false rows)).adj v e.2.1 = true := by
      unfold Graph.adj
      exact List.any_eq_true.mpr ⟨e, heE1, by simp [he1]⟩
    have hu1 : e.2.1 ∈ (removeIsolates (fromEdgeList false rows)).nodes := (hP e heE1).2
    have huc : e.2.1 ∈ c := by
      rw [hcw] at hvc ⊢
      exact compOf_closed _ w hnd hw v e.2.1 hvc hu1 hadj
    have heG2 : e ∈ G2.edges := by
      rw [hGe]
      refine List.mem_filter.mpr ⟨heE1, ?_⟩
      simp [he1]
      exact ⟨by simpa using hvc, by simpa using huc⟩
    have hmem : e ∈ G2.edges.filter (fun e' => e'.1 == v) :=
      List.mem_filter.mpr ⟨heG2, by simp [he1]⟩
    have hlen : 0 < (G2.edges.filter (fun e' => e'.1 == v)).length :=
      List.length_pos_of_mem hmem
    unfold degree
    omega
  | inr he1 =>
    have hadj : (removeIsolates (fromEdgeList false rows)).adj v e.1 = true := by
      unfold Graph.adj
      refine List.any_eq_true.mpr ⟨e, heE1, ?_⟩
      simp [he1, hdir]
    have hu1 : e.1 ∈ (removeIsolates (fromEdgeList false rows)).nodes := (hP e heE1).1
    have huc : e.1 ∈ c := by
      rw [hcw] at hvc ⊢
      exact compOf_closed _ w hnd hw v e.1 hvc hu1 hadj
    have heG2 : e ∈ G2.edges := by
      rw [hGe]
      refine List.mem_filter.mpr ⟨heE1, ?_⟩
      simp [he1]
      exact ⟨by simpa using huc, by simpa using hvc⟩
    have hmem : e ∈ G2.edges.filter (fun e' => e'.2.1 == v) :=
      List.mem_filter.mpr ⟨heG2, by simp [he1]⟩
    have hlen : 0 < (G2.edges.filter (fun e' => e'.2.1 == v)).length :=
      List.length_pos_of_mem hmem
    unfold degree
    omega

/-- C7 witness: node 0 of the pipeline graph built from the single row
`(0, 1, 1)` has degree 1. -/
theorem c7_retained_degree_witness :
    1 ≤ degree ⟨false, [0, 1], [(0, 1, 1)]⟩ 0 :=
  c7_retained_degree [(0, 1, 1)] ⟨false, [0, 1], [(0, 1, 1)]⟩ rfl 0 (by decide)

end XTrack
